import Mathlib

/-!
Verification development for the noir slice-normalization pass
(`compiler/noirc_evaluator/src/ssa/opt/fill_internal_slices.rs`) and the
brillig directive generators
(`compiler/noirc_evaluator/src/brillig/brillig_gen/brillig_directive.rs`).

The SSA data model (value ids, the value store, types) and the brillig
virtual machine are external collaborators of those two files; they are
modelled from the specification where needed, as marked on each definition.
-/

namespace NoirSlices

/-- SSA value id: an opaque, totally ordered handle into the value store. -/
abbrev Vid := Nat

/-- Modelled from the spec: the numeric kinds of `Type::Numeric`
(field kind or a bit-width integer kind). -/
inductive NumTy
  | field
  | unsigned (width : Nat)
  | signed (width : Nat)
deriving DecidableEq

/-- Modelled from the spec: the SSA `Type` variant set
{Numeric, Array(element types, length), Slice(element types), Reference, Function}. -/
inductive Ty
  | numeric (nt : NumTy)
  | array (ets : List Ty) (len : Nat)
  | slice (ets : List Ty)
  | reference
  | function

mutual
/-- Modelled from the spec: `Type::contains_slice_element`, true if the type
or any nested element type is `Slice`. -/
def containsSlice : Ty → Bool
  | .numeric _ => false
  | .array ets _ => containsSliceList ets
  | .slice _ => true
  | .reference => false
  | .function => false

def containsSliceList : List Ty → Bool
  | [] => false
  | t :: ts => containsSlice t || containsSliceList ts
end

/-- Whether a type is the `Slice` variant itself (the `if let Type::Slice(_)` tests). -/
def isSliceTy : Ty → Bool
  | .slice _ => true
  | _ => false

/-- Modelled from the spec: `Type::element_size`, the element-group arity
(number of element types) of an array or slice type. -/
def elementSize : Ty → Nat
  | .array ets _ => ets.length
  | .slice ets => ets.length
  | _ => 0

/-- A type whose padded replacement slot keeps the source id unchanged
(numeric and fixed-array slots; slice slots are re-materialized). -/
def isLeafTy : Ty → Bool
  | .numeric _ => true
  | .array _ _ => true
  | _ => false

/-- The slice-mutating builtin intrinsics of `Instruction::Call` that the
tracker recognises, plus a stand-in for every other intrinsic. -/
inductive IntrKind
  | pushBack
  | pushFront
  | popBack
  | popFront
  | insert
  | remove
  | otherI
deriving DecidableEq

/-- Modelled from the spec: the SSA values the pass inspects — array/slice
constants built from ordered element-id sequences, numeric constants,
intrinsic function values, and any other value (parameters, instruction
results), each carrying its type. -/
inductive Val
  | arr (elems : List Vid) (typ : Ty)
  | numConst (val : Nat) (typ : Ty)
  | intrinsic (k : IntrKind)
  | other (typ : Ty)

/-- Modelled from the spec: the function's SSA value store, keyed by value id,
with a fresh-id counter for newly materialized values. -/
structure Dfg where
  vals : List (Vid × Val)
  next : Vid

/-- First-match association-list lookup (hash/btree-map lookup). -/
def alookup {α : Type} : List (Vid × α) → Vid → Option α
  | [], _ => none
  | (k, v) :: rest, i => if i = k then some v else alookup rest i

/-- Overwriting association-list insert (hash/btree-map insert). -/
def ainsert {α : Type} (m : List (Vid × α)) (k : Vid) (v : α) : List (Vid × α) :=
  (k, v) :: m

def lookupVal (d : Dfg) (v : Vid) : Option Val :=
  alookup d.vals v

/-- Modelled from the spec: `dfg.type_of_value`. -/
def typeOfValue (d : Dfg) (v : Vid) : Ty :=
  match lookupVal d v with
  | some (.arr _ t) => t
  | some (.numConst _ t) => t
  | some (.intrinsic _) => .function
  | some (.other t) => t
  | none => .numeric .field

/-- Whether the id denotes a materialized `Value::Array` constant. -/
def isArrValue (d : Dfg) (v : Vid) : Bool :=
  match lookupVal d v with
  | some (.arr _ _) => true
  | _ => false

/-- Modelled from the spec: `dfg.make_constant` — materializes a numeric
constant value and returns its id (constant caching elided). -/
def makeConstant (d : Dfg) (val : Nat) (t : Ty) : Vid × Dfg :=
  (d.next, ⟨(d.next, .numConst val t) :: d.vals, d.next + 1⟩)

/-- Modelled from the spec: `dfg.make_array` — materializes an array/slice
value from an ordered element-id sequence and its type. -/
def makeArray (d : Dfg) (elems : List Vid) (t : Ty) : Vid × Dfg :=
  (d.next, ⟨(d.next, .arr elems t) :: d.vals, d.next + 1⟩)

/-- The block instructions the pass distinguishes: `ArrayGet`, `ArraySet`,
`Call`, and any other instruction (inert for this pass). Result ids are
carried on the instruction (`dfg.instruction_results`). -/
inductive Instr
  | arrayGet (res : Vid) (array : Vid) (index : Vid)
  | arraySet (res : Vid) (array : Vid) (index : Vid) (value : Vid)
  | call (results : List Vid) (func : Vid) (args : List Vid)
  | simple (results : List Vid) (ops : List Vid)
deriving DecidableEq

/-- `slice_sizes` record: `(maxLength, direct inner slice ids)` per value id. -/
abbrev SzMap := List (Vid × (Nat × List Vid))

/-- `mapped_slice_values`: the supersession map from a slice identity to the
identity that replaces it. -/
abbrev VMap := List (Vid × Vid)

/-- The first inner loop of `compute_slice_sizes`: the maximum `maxLength`
among the direct inner slices (`expect "ICE: should have inner slice set"`). -/
def maxInnerLen (sizes : SzMap) : List Vid → Nat → Except String Nat
  | [], acc => .ok acc
  | i :: rest, acc =>
    match alookup sizes i with
    | none => .error "ICE: should have inner slice set"
    | some (len, _) => maxInnerLen sizes rest (if len > acc then len else acc)

/-- The second inner loop of `compute_slice_sizes`: raise every direct inner
record strictly below the maximum up to it. -/
def raiseInner (sizes : SzMap) (inner : List Vid) (m : Nat) : Except String SzMap :=
  match inner with
  | [] => .ok sizes
  | i :: rest =>
    match alookup sizes i with
    | none => .error "ICE: should have inner slice set"
    | some (len, inn) =>
      raiseInner (if len < m then ainsert sizes i (m, inn) else sizes) rest m

mutual
/-- `Context::compute_slice_sizes` (fill_internal_slices.rs:378-414): seed the
size record of a materialized slice value, descending into its slice-typed
elements and raising all direct inner records to their common maximum.
Recursion through the value store is bounded by explicit fuel; `.error` covers
both the source's `expect` panics and fuel exhaustion. -/
def computeSliceSizes (fuel : Nat) (d : Dfg) (arrayId : Vid) (sizes : SzMap) :
    Except String SzMap :=
  match fuel with
  | 0 => .error "fuel exhausted"
  | fuel + 1 =>
    match lookupVal d arrayId with
    | some (.arr elems typ) =>
      if isSliceTy typ then
        match computeInner fuel d elems sizes with
        | .error e => .error e
        | .ok (inner, s1) =>
          match maxInnerLen s1 inner 0 with
          | .error e => .error e
          | .ok m =>
            match raiseInner s1 inner m with
            | .error e => .error e
            | .ok s2 =>
              .ok (ainsert s2 arrayId (elems.length / elementSize typ, inner))
      else .ok sizes
    | _ => .ok sizes
  termination_by structural fuel

/-- The element loop of `compute_slice_sizes`: collect the slice-typed element
ids in order, recursing into each. -/
def computeInner (fuel : Nat) (d : Dfg) (elems : List Vid) (sizes : SzMap) :
    Except String (List Vid × SzMap) :=
  match fuel with
  | 0 => .error "fuel exhausted"
  | fuel + 1 =>
    match elems with
    | [] => .ok ([], sizes)
    | v :: vs =>
      if isSliceTy (typeOfValue d v) then
        match computeSliceSizes fuel d v sizes with
        | .error e => .error e
        | .ok s1 =>
          match computeInner fuel d vs s1 with
          | .error e => .error e
          | .ok (rest, s2) => .ok (v :: rest, s2)
      else computeInner fuel d vs sizes
  termination_by structural fuel
end

/-- `Context::follow_mapped_slice_values` (fill_internal_slices.rs:460-469):
follow `mapped_slice_values[id]` repeatedly until no further mapping exists.
Recursion through the map is bounded by explicit fuel. -/
def followMappedSliceValues (fuel : Nat) (mapped : VMap) (arrayId : Vid) : Vid :=
  match fuel with
  | 0 => arrayId
  | fuel + 1 =>
    match alookup mapped arrayId with
    | none => arrayId
    | some v => followMappedSliceValues fuel mapped v

/-- The resolution relation computed by `follow_mapped_slice_values`: `id`
resolves to the canonical id `c` reached when no further mapping exists. -/
inductive Resolves (m : VMap) : Vid → Vid → Prop
  | canon {id : Vid} : alookup m id = none → Resolves m id id
  | step {id j c : Vid} : alookup m id = some j → Resolves m j c → Resolves m id c

/-- Reachability along the supersession map: `id'` is a (possibly later)
member of the lineage chain starting at `id`. -/
inductive Reaches (m : VMap) : Vid → Vid → Prop
  | refl (id : Vid) : Reaches m id id
  | step {id j k : Vid} : alookup m id = some j → Reaches m j k → Reaches m id k

/-- The fold of `compute_inner_max_size` (fill_internal_slices.rs:439-458):
optional maximum `maxLength` among a record's direct inner slices. -/
def maxOfInner (sizes : SzMap) : List Vid → Option Nat → Except String (Option Nat)
  | [], acc => .ok acc
  | i :: rest, acc =>
    match alookup sizes i with
    | none => .error "should have slice sizes"
    | some (len, _) =>
      match acc with
      | some m => maxOfInner sizes rest (if len > m then some len else some m)
      | none => maxOfInner sizes rest (some len)

/-- `Context::compute_inner_max_size`: largest `maxLength` among the direct
inner slices of `currentArrayId`, if it has any. -/
def computeInnerMaxSize (sizes : SzMap) (currentArrayId : Vid) :
    Except String (Option Nat) :=
  match alookup sizes currentArrayId with
  | none => .error "should have slice sizes"
  | some (_, inner) => maxOfInner sizes inner none

mutual
/-- `Context::find_max_nested_depth` (fill_internal_slices.rs:416-437): the
largest bound reachable from `arrayId` through the size records, fatal when
`arrayId` has no record. Fuel bounds recursion through the map. -/
def findMaxNestedDepth (fuel : Nat) (sizes : SzMap) (arrayId : Vid) :
    Except String Nat :=
  match fuel with
  | 0 => .error "fuel exhausted"
  | fuel + 1 =>
    match alookup sizes arrayId with
    | none => .error "should have slice sizes"
    | some (currentSize, innerSlices) => findMaxInner fuel sizes innerSlices currentSize
  termination_by structural fuel

/-- The inner-slice loop of `find_max_nested_depth`. -/
def findMaxInner (fuel : Nat) (sizes : SzMap) (l : List Vid) (acc : Nat) :
    Except String Nat :=
  match fuel with
  | 0 => .error "fuel exhausted"
  | fuel + 1 =>
    match l with
    | [] => .ok acc
    | i :: rest =>
      match computeInnerMaxSize sizes i with
      | .error e => .error e
      | .ok im =>
        let acc1 := match im with
          | some m => if m > acc then m else acc
          | none => acc
        match findMaxNestedDepth fuel sizes i with
        | .error e => .error e
        | .ok nested =>
          findMaxInner fuel sizes rest (if nested > acc1 then nested else acc1)
  termination_by structural fuel
end

mutual
/-- `Context::attach_slice_dummies` (fill_internal_slices.rs:292-376):
type-directed synthesis of the padded replacement for an array/slice value.
`ρ` models `inserter.resolve`; `.none` covers the source's `unreachable!` /
`panic!` arms and fuel exhaustion. -/
def attachSliceDummies (fuel : Nat) (d : Dfg) (ρ : Vid → Vid) (typ : Ty)
    (value : Option Vid) (nestedSliceMax : Nat) (isParentSlice : Bool) :
    Option (Vid × Dfg) :=
  match fuel with
  | 0 => none
  | fuel + 1 =>
    match typ with
    | .numeric _ =>
      match value with
      | some v => some (ρ v, d)
      | none => some (makeConstant d 0 (.numeric .field))
    | .array ets len =>
      match value with
      | some v => some (ρ v, d)
      | none =>
        match attachSlots fuel d ρ ets none nestedSliceMax (len * ets.length) 0 with
        | some (elems, d1) => some (makeArray d1 elems (.array ets len))
        | none => none
    | .slice ets =>
      match value with
      | some v =>
        match lookupVal d v with
        | some (.arr srcElems _) =>
          let maxSize := if isParentSlice then srcElems.length / ets.length
            else nestedSliceMax
          match attachSlots fuel d ρ ets (some srcElems) nestedSliceMax
              (maxSize * ets.length) 0 with
          | some (elems, d1) => some (makeArray d1 elems (.slice ets))
          | none => none
        | _ => none
      | none =>
        match attachSlots fuel d ρ ets none nestedSliceMax
            (nestedSliceMax * ets.length) 0 with
        | some (elems, d1) => some (makeArray d1 elems (.slice ets))
        | none => none
    | .reference => none
    | .function => none
  termination_by structural fuel

/-- The flattened slot loop of `attach_slice_dummies`: `count` remaining slots
starting at flattened index `s0`; slot `s` uses element type `ets[s % |ets|]`
and, when a source exists and `s` is within its real extent, the source's
element id at `s`. -/
def attachSlots (fuel : Nat) (d : Dfg) (ρ : Vid → Vid) (ets : List Ty)
    (src : Option (List Vid)) (nestedSliceMax : Nat) (count : Nat) (s0 : Nat) :
    Option (List Vid × Dfg) :=
  match fuel with
  | 0 => none
  | fuel + 1 =>
    match count with
    | 0 => some ([], d)
    | count + 1 =>
      let et := ets.getD (s0 % ets.length) (.numeric .field)
      let elemSrc : Option Vid := src.bind fun srcElems => srcElems.get? s0
      match attachSliceDummies fuel d ρ et elemSrc nestedSliceMax false with
      | some (id, d1) =>
        match attachSlots fuel d1 ρ ets src nestedSliceMax count (s0 + 1) with
        | some (rest, d2) => some (id :: rest, d2)
        | none => none
      | none => none
  termination_by structural fuel
end

/-- Analysis state of the first phase of `process_block`: the seen slice
values, the size records and the supersession map. -/
structure TrackSt where
  sliceValues : List Vid
  sliceSizes : SzMap
  mapped : VMap

/-- The inner-slice copy loop of the `ArrayGet` arm (fill_internal_slices.rs:82-90):
copy each inner slice's record onto the result id, in order. -/
def copyLoop (sizes : SzMap) (res : Vid) : List Vid → Except String SzMap
  | [] => .ok sizes
  | sv :: rest =>
    match alookup sizes sv with
    | none => .error "ICE: should have inner slice set for"
    | some r => copyLoop (ainsert sizes res r) res rest

/-- Seeding step shared by the `ArrayGet`/`ArraySet` arms: a materialized
array value whose type contains a slice element is recorded as seen and its
size records computed. -/
def seedArray (fuel : Nat) (d : Dfg) (st : TrackSt) (array : Vid) :
    Except String TrackSt :=
  if isArrValue d array && containsSlice (typeOfValue d array) then
    match computeSliceSizes fuel d array st.sliceSizes with
    | .ok s' => .ok { st with sliceValues := st.sliceValues ++ [array], sliceSizes := s' }
    | .error e => .error e
  else .ok st

/-- One instruction of the analysis phase of `process_block`
(fill_internal_slices.rs:65-185). `.error` models the `panic!`/`expect`
diagnostics (and fuel exhaustion inside `compute_slice_sizes`). -/
def trackInstr (fuel : Nat) (d : Dfg) (st : TrackSt) : Instr → Except String TrackSt
  | .arrayGet res array _index => do
    let st ← seedArray fuel d st array
    if containsSlice (typeOfValue d res) then
      match alookup st.sliceSizes array with
      | some (len, inner) =>
        let inner' := inner ++ [res]
        let sizes1 := ainsert st.sliceSizes array (len, inner')
        let mapped1 := ainsert st.mapped array res
        match copyLoop sizes1 res inner' with
        | .ok sizes2 => .ok { st with sliceSizes := sizes2, mapped := mapped1 }
        | .error e => .error e
      | none => .ok st
    else .ok st
  | .arraySet res array _index value => do
    let st ← seedArray fuel d st array
    let st ←
      if containsSlice (typeOfValue d value) then
        match computeSliceSizes fuel d value st.sliceSizes with
        | .ok s' => .ok { st with sliceSizes := s' }
        | .error e => .error e
      else .ok st
    let st ←
      if containsSlice (typeOfValue d value) then
        match alookup st.sliceSizes array with
        | some (len, inner) =>
          .ok { st with sliceSizes := ainsert st.sliceSizes array (len, inner ++ [value]),
                        mapped := ainsert st.mapped value res }
        | none => .error "ICE expected slice sizes"
      else .ok st
    match alookup st.sliceSizes array with
    | some r =>
      .ok { st with sliceSizes := ainsert st.sliceSizes res r,
                    mapped := ainsert st.mapped array res }
    | none => .ok st
  | .call results func args =>
    match lookupVal d func with
    | some (.intrinsic k) =>
      match k with
      | .pushBack | .pushFront | .insert =>
        let sliceContents := args.getD 1 0
        (match alookup st.sliceSizes sliceContents with
         | some (len, inner) =>
           .ok { st with
             sliceSizes := ainsert (ainsert st.sliceSizes sliceContents (len + 1, inner))
               (results.getD 1 0) (len + 1, inner),
             mapped := ainsert st.mapped sliceContents (results.getD 1 0) }
         | none => .ok st)
      | .popBack | .popFront | .remove =>
        let sliceContents := args.getD 1 0
        let ri : Nat := match k with | .popFront => 2 | _ => 1
        (match alookup st.sliceSizes sliceContents with
         | some r =>
           .ok { st with
             sliceSizes := ainsert st.sliceSizes (results.getD ri 0) r,
             mapped := ainsert st.mapped sliceContents (results.getD ri 0) }
         | none => .ok st)
      | .otherI => .ok st
    | _ => .ok st
  | .simple _ _ => .ok st

/-- The analysis phase of `process_block` over a whole instruction list. -/
def trackBlock (fuel : Nat) (d : Dfg) : List Instr → TrackSt → Except String TrackSt
  | [], st => .ok st
  | i :: rest, st =>
    match trackInstr fuel d st i with
    | .ok st' => trackBlock fuel d rest st'
    | .error e => .error e

/-- The `nested_slice_max` loop of `process_block`
(fill_internal_slices.rs:187-202): resolve each seen slice value and take the
maximum nested depth over all of them. -/
def nestedMaxLoop (fuel : Nat) (sizes : SzMap) (mapped : VMap) :
    List Vid → Nat → Except String Nat
  | [], acc => .ok acc
  | sv :: rest, acc =>
    let canonical := followMappedSliceValues fuel mapped sv
    match findMaxNestedDepth fuel sizes canonical with
    | .ok nd => nestedMaxLoop fuel sizes mapped rest (if nd > acc then nd else acc)
    | .error e => .error e

/-- Modelled from the spec: `FunctionInserter::resolve`, following the
inserter's substitution map to the latest replacement of a value id. -/
def resolveIns (fuel : Nat) (remap : VMap) (v : Vid) : Vid :=
  followMappedSliceValues fuel remap v

/-- Modelled from the spec: `FunctionInserter::map_instruction` — instructions
are copied through with operand ids remapped to reflect substitutions made
earlier in the same block. -/
def mapInstrOps (fuel : Nat) (remap : VMap) : Instr → Instr
  | .arrayGet res array index =>
    .arrayGet res (resolveIns fuel remap array) (resolveIns fuel remap index)
  | .arraySet res array index value =>
    .arraySet res (resolveIns fuel remap array) (resolveIns fuel remap index)
      (resolveIns fuel remap value)
  | .call results func args =>
    .call results (resolveIns fuel remap func) (args.map (resolveIns fuel remap))
  | .simple results ops => .simple results (ops.map (resolveIns fuel remap))

/-- Rewrite-phase state: the (append-only) value store, the inserter's value
substitution map, and the instructions emitted so far. -/
structure RwSt where
  dfg : Dfg
  remap : VMap
  out : List Instr

/-- One instruction of the rewrite phase of `process_block`
(fill_internal_slices.rs:204-287): reads/writes on seen slice values are
re-emitted over the padded replacement; everything else is copied through. -/
def rewriteStep (fuel : Nat) (sliceValues : List Vid) (sizes : SzMap)
    (mapped : VMap) (st : RwSt) : Instr → Except String RwSt
  | .arrayGet res array index =>
    if sliceValues.contains array then
      let typ := typeOfValue st.dfg array
      let canonical := followMappedSliceValues fuel mapped array
      match findMaxNestedDepth fuel sizes canonical with
      | .error e => .error e
      | .ok nmax =>
        match attachSliceDummies fuel st.dfg (resolveIns fuel st.remap) typ
            (some array) nmax true with
        | some (newArray, d1) =>
          .ok { st with
                dfg := d1,
                out := st.out ++ [.arrayGet res (resolveIns fuel st.remap newArray)
                  (resolveIns fuel st.remap index)] }
        | none => .error "attach_slice_dummies failed"
    else .ok { st with out := st.out ++ [mapInstrOps fuel st.remap (.arrayGet res array index)] }
  | .arraySet res array index value =>
    if sliceValues.contains array then
      let typ := typeOfValue st.dfg array
      let canonical := followMappedSliceValues fuel mapped array
      match findMaxNestedDepth fuel sizes canonical with
      | .error e => .error e
      | .ok nmax =>
        match attachSliceDummies fuel st.dfg (resolveIns fuel st.remap) typ
            (some array) nmax true with
        | some (newArray, d1) =>
          .ok { st with
                dfg := d1,
                out := st.out ++ [.arraySet res (resolveIns fuel st.remap newArray)
                  (resolveIns fuel st.remap index) (resolveIns fuel st.remap value)] }
        | none => .error "attach_slice_dummies failed"
    else .ok { st with out := st.out ++ [mapInstrOps fuel st.remap (.arraySet res array index value)] }
  | i => .ok { st with out := st.out ++ [mapInstrOps fuel st.remap i] }

/-- The rewrite phase over a whole instruction list. -/
def rewriteList (fuel : Nat) (sliceValues : List Vid) (sizes : SzMap)
    (mapped : VMap) (st : RwSt) : List Instr → Except String RwSt
  | [] => .ok st
  | i :: rest =>
    match rewriteStep fuel sliceValues sizes mapped st i with
    | .ok st' => rewriteList fuel sliceValues sizes mapped st' rest
    | .error e => .error e

/-- `Context::process_block` over one basic block: analysis phase, the
`nested_slice_max` loop, the rewrite phase, and the terminator remap
(a terminator is modelled by its operand id list). -/
def processBlock (fuel : Nat) (d : Dfg) (instrs : List Instr) (term : List Vid) :
    Except String (List Instr × List Vid × Dfg) :=
  match trackBlock fuel d instrs ⟨[], [], []⟩ with
  | .error e => .error e
  | .ok st =>
    match nestedMaxLoop fuel st.sliceSizes st.mapped st.sliceValues 0 with
    | .error e => .error e
    | .ok _ =>
      match rewriteList fuel st.sliceValues st.sliceSizes st.mapped ⟨d, [], []⟩ instrs with
      | .error e => .error e
      | .ok rw => .ok (rw.out, term.map (resolveIns fuel rw.remap), rw.dfg)

/-! ## Brillig directives (brillig_directive.rs) -/

/-- Modelled from the spec: the brillig binary field operations. -/
inductive BinaryFieldOp
  | add
  | sub
  | mul
  | div
deriving DecidableEq

/-- Modelled from the spec: the brillig binary integer operations. -/
inductive BinaryIntOp
  | add
  | sub
  | mul
  | unsignedDiv
deriving DecidableEq

/-- Modelled from the spec: the brillig opcodes used by the directive
generators, registers addressed by index. -/
inductive BrilligOpcode
  | jumpIfNot (condition : Nat) (location : Nat)
  | const (destination : Nat) (value : Nat)
  | binaryFieldOp (op : BinaryFieldOp) (lhs : Nat) (rhs : Nat) (destination : Nat)
  | binaryIntOp (op : BinaryIntOp) (lhs : Nat) (rhs : Nat) (destination : Nat) (bitSize : Nat)
  | mov (destination : Nat) (source : Nat)
  | foreignCall (function : String) (destinations : List Nat) (inputs : List Nat)
  | stop
deriving DecidableEq

/-- `GeneratedBrillig`: a standalone bytecode artifact plus (empty) assert
message and source location side tables. -/
structure GeneratedBrillig where
  byteCode : List BrilligOpcode
  assertMessages : List (Nat × String)
  locations : List (Nat × Nat)

/-- `directive_invert` (brillig_directive.rs:8-39): bytecode computing, in
place of register 0, the field inverse of its value (or zero when zero). -/
def directive_invert : GeneratedBrillig :=
  { byteCode :=
      [ .jumpIfNot 0 3,
        .const 1 1,
        .binaryFieldOp .div 1 0 0,
        .stop ],
    assertMessages := [],
    locations := [] }

/-- `directive_quotient` (brillig_directive.rs:50-89): bytecode computing the
unsigned quotient of register 0 by register 1 into register 0 and the
remainder into register 1, at the given bit width. -/
def directive_quotient (bitSize : Nat) : GeneratedBrillig :=
  { byteCode :=
      [ .binaryIntOp .unsignedDiv 0 1 2 bitSize,
        .binaryIntOp .mul 2 1 1 bitSize,
        .binaryIntOp .sub 0 1 1 bitSize,
        .mov 0 2,
        .stop ],
    assertMessages := [],
    locations := [] }

/-- `directive_assert_message` (brillig_directive.rs:91-109): a single foreign
call with no declared inputs/outputs followed by stop. -/
def directive_assert_message (_inputs : List Vid) : GeneratedBrillig :=
  { byteCode :=
      [ .foreignCall "resolve_assert_message" [] [],
        .stop ],
    assertMessages := [],
    locations := [] }

/-- Register-file update. -/
def updReg {α : Type} (regs : Nat → α) (i : Nat) (v : α) : Nat → α :=
  fun j => if j = i then v else regs j

/-- Modelled from the spec: the unconstrained register machine executing a
directive over field elements (`jumpIfNot` jumps when the condition register
is zero; `stop` halts and returns the register file). Only the opcodes a
field-directive uses are given semantics; fuel bounds execution. -/
def runFieldVM (F : Type) [Field F] [DecidableEq F] (prog : List BrilligOpcode) :
    Nat → Nat → (Nat → F) → Option (Nat → F)
  | 0, _, _ => none
  | fuel + 1, pc, regs =>
    match prog.get? pc with
    | none => none
    | some op =>
      match op with
      | .stop => some regs
      | .jumpIfNot c loc =>
        if regs c = 0 then runFieldVM F prog fuel loc regs
        else runFieldVM F prog fuel (pc + 1) regs
      | .const dst v => runFieldVM F prog fuel (pc + 1) (updReg regs dst (v : F))
      | .binaryFieldOp op l r dst =>
        let a := regs l
        let b := regs r
        let res := match op with
          | .add => a + b
          | .sub => a - b
          | .mul => a * b
          | .div => a / b
        runFieldVM F prog fuel (pc + 1) (updReg regs dst res)
      | .mov dst src => runFieldVM F prog fuel (pc + 1) (updReg regs dst (regs src))
      | .binaryIntOp _ _ _ _ _ => none
      | .foreignCall _ _ _ => none

/-- Modelled from the spec: semantics of a brillig binary integer operation at
a given bit width — unsigned arithmetic modulo `2 ^ bitSize`. -/
def intOpEval (op : BinaryIntOp) (w : Nat) (a b : Nat) : Nat :=
  match op with
  | .add => (a + b) % 2 ^ w
  | .sub => (a % 2 ^ w + (2 ^ w - b % 2 ^ w)) % 2 ^ w
  | .mul => (a * b) % 2 ^ w
  | .unsignedDiv => (a / b) % 2 ^ w

/-- Modelled from the spec: the unconstrained register machine executing a
directive over unsigned integers at per-opcode bit widths. -/
def runIntVM (prog : List BrilligOpcode) :
    Nat → Nat → (Nat → Nat) → Option (Nat → Nat)
  | 0, _, _ => none
  | fuel + 1, pc, regs =>
    match prog.get? pc with
    | none => none
    | some op =>
      match op with
      | .stop => some regs
      | .jumpIfNot c loc =>
        if regs c = 0 then runIntVM prog fuel loc regs
        else runIntVM prog fuel (pc + 1) regs
      | .const dst v => runIntVM prog fuel (pc + 1) (updReg regs dst v)
      | .binaryIntOp op l r dst w =>
        runIntVM prog fuel (pc + 1) (updReg regs dst (intOpEval op w (regs l) (regs r)))
      | .mov dst src => runIntVM prog fuel (pc + 1) (updReg regs dst (regs src))
      | .binaryFieldOp _ _ _ _ => none
      | .foreignCall _ _ _ => none

/-! ## Projections and concrete instances used in the theorems -/

/-- Projection of an `Except` result onto its success value. -/
def exOk {α : Type} : Except String α → Option α
  | .ok a => some a
  | .error _ => none

/-- Projection of an `Except` result onto its diagnostic message. -/
def exErr {α : Type} : Except String α → Option String
  | .error e => some e
  | .ok _ => none

/-- The element-id list stored at a value id (empty when the id does not hold
a materialized array value). -/
def elemsAt (d : Dfg) (v : Vid) : List Vid :=
  match lookupVal d v with
  | some (.arr elems _) => elems
  | _ => []

/-- The numeric kind of the constant stored at a value id. -/
def numConstKindAt (d : Dfg) (v : Vid) : Option NumTy :=
  match lookupVal d v with
  | some (.numConst _ (.numeric nt)) => some nt
  | _ => none

/-- An instruction whose source array operand is not a materialized
slice-containing value (the reading of claim C10's hypothesis). -/
def noMatSliceSource (d : Dfg) : Instr → Bool
  | .arrayGet _ array _ => !(isArrValue d array && containsSlice (typeOfValue d array))
  | .arraySet _ array _ _ => !(isArrValue d array && containsSlice (typeOfValue d array))
  | _ => true

/-- An instruction that touches no slice data at all: its source array operand
is not a materialized slice-containing value and, for a write, the written
value's type contains no slice element. -/
def noSliceTouch (d : Dfg) : Instr → Bool
  | .arrayGet _ array _ => !(isArrValue d array && containsSlice (typeOfValue d array))
  | .arraySet _ array _ value =>
    !(isArrValue d array && containsSlice (typeOfValue d array)) &&
      !(containsSlice (typeOfValue d value))
  | _ => true

/-- Concrete store for claim C1: id 3 is a slice of slices `[[0]]`, its single
inner slice being id 2 with element id 1. -/
def dC1 : Dfg :=
  ⟨[(1, .numConst 0 (.numeric .field)),
    (2, .arr [1] (.slice [.numeric .field])),
    (3, .arr [2] (.slice [.slice [.numeric .field]]))], 4⟩

/-- Concrete store for claim C1's witness: id 3 is a flat slice of the two
field constants 7 and 8. -/
def dW1 : Dfg :=
  ⟨[(7, .numConst 1 (.numeric .field)),
    (8, .numConst 2 (.numeric .field)),
    (3, .arr [7, 8] (.slice [.numeric .field]))], 9⟩

/-- Concrete store for claim C3: id 1 is a slice of one field element; ids 3
and 4 are the push-back and pop-back intrinsics; 2x ids are instruction
results. -/
def dC3 : Dfg :=
  ⟨[(1, .arr [7] (.slice [.numeric .field])),
    (7, .numConst 5 (.numeric .field)),
    (9, .numConst 0 (.numeric .field)),
    (20, .other (.numeric .field)),
    (3, .intrinsic .pushBack),
    (4, .intrinsic .popBack),
    (11, .other (.numeric .field)),
    (12, .other (.numeric .field)),
    (21, .other (.numeric .field)),
    (22, .other (.slice [.numeric .field])),
    (23, .other (.numeric .field)),
    (24, .other (.slice [.numeric .field])),
    (25, .other (.numeric .field)),
    (26, .other (.slice [.numeric .field]))], 40⟩

/-- Block for claim C3: seed the slice via a read, push twice, then pop. -/
def blkC3 : List Instr :=
  [.arrayGet 20 1 9,
   .call [21, 22] 3 [11, 1, 12],
   .call [23, 24] 3 [11, 22, 12],
   .call [25, 26] 4 [11, 24]]

/-- Concrete store for claim C3's witness: just the pop-back intrinsic. -/
def dW3 : Dfg :=
  ⟨[(4, .intrinsic .popBack)], 5⟩

/-- Concrete store for claim C4's counterexample: id 3 is a slice of slices
with direct inner slices 2 and 5 (both of length 1); id 10 is the push-back
intrinsic. -/
def dC4 : Dfg :=
  ⟨[(1, .numConst 0 (.numeric .field)),
    (2, .arr [1] (.slice [.numeric .field])),
    (5, .arr [1] (.slice [.numeric .field])),
    (3, .arr [2, 5] (.slice [.slice [.numeric .field]])),
    (9, .numConst 0 (.numeric .field)),
    (30, .other (.slice [.numeric .field])),
    (10, .intrinsic .pushBack),
    (11, .other (.numeric .field)),
    (12, .other (.slice [.numeric .field])),
    (31, .other (.numeric .field)),
    (32, .other (.slice [.numeric .field]))], 40⟩

/-- Block for claim C4's counterexample: a read seeds the group of id 3, then
a push-back grows inner sibling 2 only. -/
def blkC4 : List Instr :=
  [.arrayGet 30 3 9,
   .call [31, 32] 10 [11, 2, 12]]

/-- Concrete store for claim C4's witness: spec §8 scenario — a slice of
slices whose inner slices have lengths 1 and 3. -/
def dW4 : Dfg :=
  ⟨[(10, .numConst 0 (.numeric .field)),
    (11, .numConst 0 (.numeric .field)),
    (12, .numConst 0 (.numeric .field)),
    (13, .numConst 0 (.numeric .field)),
    (2, .arr [10] (.slice [.numeric .field])),
    (5, .arr [11, 12, 13] (.slice [.numeric .field])),
    (3, .arr [2, 5] (.slice [.slice [.numeric .field]]))], 40⟩

/-- Concrete store for claim C9's counterexample: id 3 is a materialized slice
of slices, id 2 its inner slice; ids 20 and 21 are the instruction results of
two consecutive writes. -/
def dC9 : Dfg :=
  ⟨[(1, .numConst 0 (.numeric .field)),
    (2, .arr [1] (.slice [.numeric .field])),
    (3, .arr [2] (.slice [.slice [.numeric .field]])),
    (9, .numConst 1 (.numeric .field)),
    (20, .other (.slice [.slice [.numeric .field]])),
    (21, .other (.slice [.slice [.numeric .field]]))], 40⟩

/-- Block for claim C9's counterexample: the second write stores a
slice-containing value into the (non-materialized) result of the first. -/
def blkC9 : List Instr :=
  [.arraySet 20 3 9 2,
   .arraySet 21 20 9 2]

/-- Concrete store for claim C9's witness: the write target id 4 is a block
parameter (not materialized), the written value id 2 a materialized slice. -/
def dW9 : Dfg :=
  ⟨[(1, .numConst 0 (.numeric .field)),
    (2, .arr [1] (.slice [.numeric .field])),
    (4, .other (.slice [.slice [.numeric .field]])),
    (9, .numConst 0 (.numeric .field)),
    (20, .other (.slice [.slice [.numeric .field]]))], 40⟩

/-- Concrete store for claim C10's counterexample (same shape as `dW9`). -/
def dC10 : Dfg :=
  ⟨[(1, .numConst 0 (.numeric .field)),
    (2, .arr [1] (.slice [.numeric .field])),
    (4, .other (.slice [.slice [.numeric .field]])),
    (9, .numConst 0 (.numeric .field)),
    (20, .other (.slice [.slice [.numeric .field]]))], 40⟩

/-- Block for claim C10's counterexample: one write of a slice-containing
value into a non-materialized target. -/
def blkC10 : List Instr :=
  [.arraySet 20 4 9 2]

/-- Concrete store for claim C10's witness: only non-slice data. -/
def dW10 : Dfg :=
  ⟨[(1, .numConst 0 (.numeric .field)),
    (9, .numConst 0 (.numeric .field)),
    (60, .other (.array [.numeric .field] 2)),
    (51, .other (.numeric .field))], 70⟩

/-- Block for claim C10's witness: an inert instruction and a read from a
non-slice array. -/
def blkW10 : List Instr :=
  [.simple [50] [1],
   .arrayGet 51 60 9]

/-! ## Helper lemmas -/

theorem alookup_ainsert_self {α : Type} (m : List (Vid × α)) (k : Vid) (v : α) :
    alookup (ainsert m k v) k = some v := by
  simp [alookup, ainsert]

theorem alookup_ainsert_ne {α : Type} (m : List (Vid × α)) {k k' : Vid} (v : α)
    (h : k' ≠ k) : alookup (ainsert m k v) k' = alookup m k' := by
  simp [alookup, ainsert, h]

theorem followMapped_of_none {m : VMap} {id : Vid} (fuel : Nat)
    (h : alookup m id = none) : followMappedSliceValues fuel m id = id := by
  cases fuel <;> simp [followMappedSliceValues, h]

theorem resolves_of_reaches {m : VMap} {id id' c : Vid} (hre : Reaches m id id') :
    Resolves m id c → Resolves m id' c := by
  induction hre with
  | refl => exact fun h => h
  | step hlk _ ih =>
    intro hres
    cases hres with
    | canon hnone => simp [hnone] at hlk
    | step hlk2 hres2 =>
      rw [hlk] at hlk2
      injection hlk2 with hj
      subst hj
      exact ih hres2

theorem resolves_realized {m : VMap} {id c : Vid} (h : Resolves m id c) :
    ∃ fuel, followMappedSliceValues fuel m id = c ∧ alookup m c = none := by
  induction h with
  | canon hnone => exact ⟨1, by simp [followMappedSliceValues, hnone], hnone⟩
  | step hlk _ ih =>
    obtain ⟨f, hf, hcan⟩ := ih
    exact ⟨f + 1, by simp [followMappedSliceValues, hlk, hf], hcan⟩

theorem get?_eq_some_getD {l : List Vid} {n : Nat} (h : n < l.length) :
    l.get? n = some (l.getD n 0) := by
  have hg := List.get?_eq_get h
  rw [hg]
  simp [List.getD, List.getElem?_eq_getElem h]

theorem attachLeaf {fuel : Nat} {d : Dfg} {ρ : Vid → Vid} {t : Ty} {w : Vid}
    {b : Nat} {r : Vid × Dfg} (hl : isLeafTy t = true)
    (h : attachSliceDummies fuel d ρ t (some w) b false = some r) : r = (ρ w, d) := by
  cases fuel with
  | zero => simp [attachSliceDummies] at h
  | succ f =>
    cases t with
    | numeric nt =>
      simp [attachSliceDummies] at h
      exact h.symm
    | array ets len =>
      simp [attachSliceDummies] at h
      exact h.symm
    | slice ets => simp [isLeafTy] at hl
    | reference => simp [isLeafTy] at hl
    | function => simp [isLeafTy] at hl

theorem attachSlots_length (ρ : Vid → Vid) (ets : List Ty) (src : Option (List Vid))
    (bound : Nat) :
    ∀ (fuel count s0 : Nat) (d d' : Dfg) (ids : List Vid),
      attachSlots fuel d ρ ets src bound count s0 = some (ids, d') →
      ids.length = count := by
  intro fuel
  induction fuel with
  | zero =>
    intro count s0 d d' ids h
    simp [attachSlots] at h
  | succ f ih =>
    intro count s0 d d' ids h
    cases count with
    | zero =>
      simp [attachSlots] at h
      simp [← h.1]
    | succ n =>
      simp only [attachSlots] at h
      cases hA : attachSliceDummies f d ρ (ets.getD (s0 % ets.length) (.numeric .field))
          (Option.bind src fun srcElems => srcElems.get? s0) bound false with
      | none => rw [hA] at h; simp at h
      | some p =>
        obtain ⟨a, d1⟩ := p
        rw [hA] at h
        simp only at h
        cases hB : attachSlots f d1 ρ ets src bound n (s0 + 1) with
        | none => rw [hB] at h; simp at h
        | some q =>
          obtain ⟨rest, d2⟩ := q
          rw [hB] at h
          simp at h
          obtain ⟨h1, _⟩ := h
          rw [← h1]
          simp [ih n (s0 + 1) d1 d2 rest hB]

theorem attachSlots_get (ρ : Vid → Vid) (ets : List Ty) (src : List Vid) (bound : Nat) :
    ∀ (fuel count s0 : Nat) (d d' : Dfg) (ids : List Vid),
      attachSlots fuel d ρ ets (some src) bound count s0 = some (ids, d') →
      ∀ j, j < count → s0 + j < src.length →
        isLeafTy (ets.getD ((s0 + j) % ets.length) (.numeric .field)) = true →
        ids.get? j = some (ρ (src.getD (s0 + j) 0)) := by
  intro fuel
  induction fuel with
  | zero =>
    intro count s0 d d' ids h
    simp [attachSlots] at h
  | succ f ih =>
    intro count s0 d d' ids h j hj hsrc hleaf
    cases count with
    | zero => exact absurd hj (Nat.not_lt_zero j)
    | succ n =>
      simp only [attachSlots] at h
      cases hA : attachSliceDummies f d ρ (ets.getD (s0 % ets.length) (.numeric .field))
          (Option.bind (some src) fun srcElems => srcElems.get? s0) bound false with
      | none => rw [hA] at h; simp at h
      | some p =>
        obtain ⟨a, d1⟩ := p
        rw [hA] at h
        simp only at h
        cases hB : attachSlots f d1 ρ ets (some src) bound n (s0 + 1) with
        | none => rw [hB] at h; simp at h
        | some q =>
          obtain ⟨rest, d2⟩ := q
          rw [hB] at h
          simp at h
          obtain ⟨h1, _⟩ := h
          rw [← h1]
          cases j with
          | zero =>
            have hs0 : s0 < src.length := by simpa using hsrc
            have hget : src.get? s0 = some (src.getD s0 0) := get?_eq_some_getD hs0
            have hA' : attachSliceDummies f d ρ
                (ets.getD (s0 % ets.length) (.numeric .field))
                (some (src.getD s0 0)) bound false = some (a, d1) := by
              rw [← hA]
              simp [List.getD, List.getElem?_eq_getElem hs0]
            have hleaf0 : isLeafTy (ets.getD (s0 % ets.length) (.numeric .field)) = true := by
              simpa using hleaf
            have hr := attachLeaf hleaf0 hA'
            have ha : a = ρ (src.getD s0 0) := congrArg Prod.fst hr
            simp [ha]
          | succ j' =>
            have harith : s0 + 1 + j' = s0 + (j' + 1) := by omega
            have := ih n (s0 + 1) d1 d2 rest hB j' (by omega)
              (by rw [harith]; exact hsrc)
              (by rw [harith]; exact hleaf)
            simpa [harith] using this

/-- Common final step of the `Type::Slice`/`Type::Array` arms of
`attach_slice_dummies`: the produced value is a fresh array holding exactly
the synthesized slot list. -/
theorem attach_mkarray_case {f : Nat} {d d1 : Dfg} {ρ : Vid → Vid} {ets : List Ty}
    {src : Option (List Vid)} {bound count : Nat} {nid : Vid} {d' : Dfg}
    {elems : List Vid} (t : Ty)
    (hS : attachSlots f d ρ ets src bound count 0 = some (elems, d1))
    (h : makeArray d1 elems t = (nid, d')) :
    lookupVal d' nid = some (.arr elems t) ∧ elems.length = count := by
  have hn := congrArg Prod.fst h
  have hd := congrArg Prod.snd h
  simp [makeArray] at hn hd
  rw [← hn, ← hd]
  constructor
  · simp [lookupVal, alookup]
  · exact attachSlots_length ρ ets src bound f count 0 d d1 elems hS

/-! ## Claim theorems -/

/-- C8: `follow_mapped_slice_values` on an id with no supersession mapping
returns the id itself; every member of a lineage chain resolves to the same
canonical id regardless of entry point; and each resolution is realised by
`follow_mapped_slice_values` with sufficient fuel, ending on an unmapped id. -/
theorem follow_mapped_slice_values_canonical :
    (∀ (m : VMap) (id : Vid) (fuel : Nat), alookup m id = none →
        followMappedSliceValues fuel m id = id) ∧
    (∀ (m : VMap) (id id' c : Vid), Resolves m id c → Reaches m id id' →
        Resolves m id' c) ∧
    (∀ (m : VMap) (id c : Vid), Resolves m id c →
        ∃ fuel, followMappedSliceValues fuel m id = c ∧ alookup m c = none) :=
  ⟨fun _ _ fuel h => followMapped_of_none fuel h,
   fun _ _ _ _ hres hre => resolves_of_reaches hre hres,
   fun _ _ _ h => resolves_realized h⟩

theorem follow_mapped_slice_values_canonical_witness :
    followMappedSliceValues 3 [(1, 2)] 5 = 5 :=
  follow_mapped_slice_values_canonical.1 [(1, 2)] 5 3 rfl

/-- C2: every slice value produced by `attach_slice_dummies` on a
`Type::Slice` has flattened element count `bound × elementTypes.len()` —
whether or not a (possibly shorter) source exists — except the outermost
slice of a rewritten lineage, whose width is the source's real stored length
divided by its element-group arity. -/
theorem attach_slice_flattened_count :
    (∀ (fuel : Nat) (d : Dfg) (ρ : Vid → Vid) (ets : List Ty) (bound : Nat)
        (p : Bool) (nid : Vid) (d' : Dfg),
        attachSliceDummies fuel d ρ (.slice ets) none bound p = some (nid, d') →
        ∃ elems, lookupVal d' nid = some (.arr elems (.slice ets)) ∧
          elems.length = bound * ets.length) ∧
    (∀ (fuel : Nat) (d : Dfg) (ρ : Vid → Vid) (ets : List Ty) (v : Vid) (bound : Nat)
        (nid : Vid) (d' : Dfg),
        attachSliceDummies fuel d ρ (.slice ets) (some v) bound false = some (nid, d') →
        ∃ elems, lookupVal d' nid = some (.arr elems (.slice ets)) ∧
          elems.length = bound * ets.length) ∧
    (∀ (fuel : Nat) (d : Dfg) (ρ : Vid → Vid) (ets : List Ty) (v : Vid) (bound : Nat)
        (nid : Vid) (d' : Dfg) (srcElems : List Vid) (styp : Ty),
        lookupVal d v = some (.arr srcElems styp) →
        attachSliceDummies fuel d ρ (.slice ets) (some v) bound true = some (nid, d') →
        ∃ elems, lookupVal d' nid = some (.arr elems (.slice ets)) ∧
          elems.length = srcElems.length / ets.length * ets.length) := by
  refine ⟨?_, ?_, ?_⟩
  · intro fuel d ρ ets bound p nid d' h
    cases fuel with
    | zero => simp [attachSliceDummies] at h
    | succ f =>
      simp only [attachSliceDummies] at h
      cases hS : attachSlots f d ρ ets none bound (bound * ets.length) 0 with
      | none => rw [hS] at h; simp at h
      | some q =>
        obtain ⟨elems, d1⟩ := q
        rw [hS] at h
        simp at h
        obtain ⟨hl, hc⟩ := attach_mkarray_case (.slice ets) hS h
        exact ⟨elems, hl, hc⟩
  · intro fuel d ρ ets v bound nid d' h
    cases fuel with
    | zero => simp [attachSliceDummies] at h
    | succ f =>
      simp only [attachSliceDummies] at h
      cases hv : lookupVal d v with
      | none => rw [hv] at h; simp at h
      | some val =>
        rw [hv] at h
        cases val with
        | arr srcElems styp =>
          simp only [Bool.false_eq_true, if_false] at h
          cases hS : attachSlots f d ρ ets (some srcElems) bound
              (bound * ets.length) 0 with
          | none => rw [hS] at h; simp at h
          | some q =>
            obtain ⟨elems, d1⟩ := q
            rw [hS] at h
            simp at h
            obtain ⟨hl, hc⟩ := attach_mkarray_case (.slice ets) hS h
            exact ⟨elems, hl, hc⟩
        | numConst a t => simp at h
        | intrinsic k => simp at h
        | other t => simp at h
  · intro fuel d ρ ets v bound nid d' srcElems styp hv h
    cases fuel with
    | zero => simp [attachSliceDummies] at h
    | succ f =>
      simp only [attachSliceDummies, hv, if_true] at h
      cases hS : attachSlots f d ρ ets (some srcElems) bound
          (srcElems.length / ets.length * ets.length) 0 with
      | none => rw [hS] at h; simp at h
      | some q =>
        obtain ⟨elems, d1⟩ := q
        rw [hS] at h
        simp at h
        obtain ⟨hl, hc⟩ := attach_mkarray_case (.slice ets) hS h
        exact ⟨elems, hl, hc⟩

theorem attach_slice_flattened_count_witness :
    ∃ (nid : Vid) (d' : Dfg) (elems : List Vid),
      attachSliceDummies 9 ⟨[], 0⟩ (fun v => v) (.slice [.numeric .field]) none 2 false
        = some (nid, d') ∧
      lookupVal d' nid = some (.arr elems (.slice [.numeric .field])) ∧
      elems.length = 2 * [Ty.numeric NumTy.field].length := by
  have h : attachSliceDummies 9 ⟨[], 0⟩ (fun v => v)
      (Ty.slice [Ty.numeric NumTy.field]) none 2 false
      = some (2, ⟨[(2, .arr [0, 1] (.slice [.numeric .field])),
          (1, .numConst 0 (.numeric .field)),
          (0, .numConst 0 (.numeric .field))], 3⟩) := rfl
  obtain ⟨elems, h1, h2⟩ := attach_slice_flattened_count.1 9 ⟨[], 0⟩ (fun v => v)
    [.numeric .field] 2 false _ _ h
  exact ⟨_, _, elems, h, h1, h2⟩

/-- C7 (amended): for a `Type::Numeric` slot with no source value,
`attach_slice_dummies` synthesizes a zero constant that is always of Field
type (`Type::field()`), regardless of the numeric kind being padded; with a
source value it passes it through unchanged, resolved to its current id. -/
theorem attach_numeric_dummy :
    (∀ (fuel : Nat) (d : Dfg) (ρ : Vid → Vid) (nt : NumTy) (bound : Nat) (p : Bool)
        (nid : Vid) (d' : Dfg),
        attachSliceDummies fuel d ρ (.numeric nt) none bound p = some (nid, d') →
        lookupVal d' nid = some (.numConst 0 (.numeric .field))) ∧
    (∀ (fuel : Nat) (d : Dfg) (ρ : Vid → Vid) (nt : NumTy) (v : Vid) (bound : Nat)
        (p : Bool),
        attachSliceDummies (fuel + 1) d ρ (.numeric nt) (some v) bound p
          = some (ρ v, d)) := by
  constructor
  · intro fuel d ρ nt bound p nid d' h
    cases fuel with
    | zero => simp [attachSliceDummies] at h
    | succ f =>
      simp only [attachSliceDummies] at h
      have hn := congrArg Prod.fst (Option.some.inj h)
      have hd := congrArg Prod.snd (Option.some.inj h)
      simp [makeConstant] at hn hd
      rw [← hn, ← hd]
      simp [lookupVal, alookup]
  · intro fuel d ρ nt v bound p
    rfl

/-- C7 counterexample: padding a `u8` numeric slot with no source produces a
constant whose numeric kind is Field, not the `u8` kind being padded. -/
theorem attach_numeric_dummy_type_cex :
    (attachSliceDummies 9 ⟨[], 0⟩ (fun v => v) (.numeric (.unsigned 8)) none 0
        false).map (fun p => numConstKindAt p.2 p.1) = some (some NumTy.field) ∧
    some NumTy.field ≠ some (NumTy.unsigned 8) := ⟨rfl, by decide⟩

theorem attach_numeric_dummy_witness :
    lookupVal ⟨[(0, .numConst 0 (.numeric .field))], 1⟩ 0
      = some (.numConst 0 (.numeric .field)) :=
  attach_numeric_dummy.1 9 ⟨[], 0⟩ (fun v => v) (.unsigned 8) 0 false 0
    ⟨[(0, .numConst 0 (.numeric .field))], 1⟩ rfl

/-- C1 (amended): for a tracked slice value being rewritten, every in-bounds
flattened slot whose element type is numeric or fixed-array holds, in the
padded replacement, exactly the source's element id at that slot (resolved
through the inserter's substitution `ρ`); slots of nested-slice type are
instead re-materialized as padded equivalents. -/
theorem attach_slice_inbounds_read :
    ∀ (fuel : Nat) (d : Dfg) (ρ : Vid → Vid) (ets : List Ty) (v : Vid) (bound : Nat)
      (nid : Vid) (d' : Dfg) (srcElems : List Vid) (styp : Ty),
      lookupVal d v = some (.arr srcElems styp) →
      attachSliceDummies fuel d ρ (.slice ets) (some v) bound true = some (nid, d') →
      ∃ elems, lookupVal d' nid = some (.arr elems (.slice ets)) ∧
        ∀ i, i < srcElems.length / ets.length * ets.length →
          isLeafTy (ets.getD (i % ets.length) (.numeric .field)) = true →
          elems.get? i = some (ρ (srcElems.getD i 0)) := by
  intro fuel d ρ ets v bound nid d' srcElems styp hv h
  cases fuel with
  | zero => simp [attachSliceDummies] at h
  | succ f =>
    simp only [attachSliceDummies, hv, if_true] at h
    cases hS : attachSlots f d ρ ets (some srcElems) bound
        (srcElems.length / ets.length * ets.length) 0 with
    | none => rw [hS] at h; simp at h
    | some q =>
      obtain ⟨elems, d1⟩ := q
      rw [hS] at h
      simp at h
      obtain ⟨hl, _⟩ := attach_mkarray_case (.slice ets) hS h
      refine ⟨elems, hl, ?_⟩
      intro i hi hleaf
      have hlen : i < srcElems.length :=
        lt_of_lt_of_le hi (Nat.div_mul_le_self srcElems.length ets.length)
      have := attachSlots_get ρ ets srcElems bound f
        (srcElems.length / ets.length * ets.length) 0 d d1 elems hS i hi
        (by simpa using hlen) (by simpa using hleaf)
      simpa using this

/-- C1 counterexample: a slice of slices `[[0]]` (outer real length 1) padded
with bound 1 — the read at in-bounds outer index 0 on the padded replacement
yields the freshly materialized inner value id 4, not the original inner
value id 2. -/
theorem attach_slice_inbounds_read_cex :
    (elemsAt dC1 3).length = 1 ∧
    (elemsAt dC1 3).getD 0 0 = 2 ∧
    (attachSliceDummies 9 dC1 (fun v => v) (.slice [.slice [.numeric .field]])
        (some 3) 1 true).map (fun p => (elemsAt p.2 p.1).getD 0 0) = some 4 ∧
    (4 : Vid) ≠ 2 := ⟨rfl, rfl, rfl, by decide⟩

theorem attach_slice_inbounds_read_witness :
    ∃ elems,
      lookupVal ⟨[(9, .arr [7, 8] (.slice [.numeric .field])),
          (7, .numConst 1 (.numeric .field)),
          (8, .numConst 2 (.numeric .field)),
          (3, .arr [7, 8] (.slice [.numeric .field]))], 10⟩ 9
        = some (.arr elems (.slice [.numeric .field])) ∧
      ∀ i, i < [7, 8].length / [Ty.numeric NumTy.field].length *
          [Ty.numeric NumTy.field].length →
        isLeafTy ([Ty.numeric NumTy.field].getD
          (i % [Ty.numeric NumTy.field].length) (.numeric .field)) = true →
        elems.get? i = some ((fun v => v) ([7, 8].getD i 0)) :=
  attach_slice_inbounds_read 9 dW1 (fun v => v) [.numeric .field] 3 5 9
    ⟨[(9, .arr [7, 8] (.slice [.numeric .field])),
      (7, .numConst 1 (.numeric .field)),
      (8, .numConst 2 (.numeric .field)),
      (3, .arr [7, 8] (.slice [.numeric .field]))], 10⟩ [7, 8]
    (.slice [.numeric .field]) rfl rfl

/-- C5: the four-opcode program of `directive_invert`, run on the field
register machine with input `x` in register 0, halts with register 0 holding
0 when `x = 0` and the multiplicative field inverse of `x` otherwise; the
input register is overwritten in place. -/
theorem directive_invert_spec :
    directive_invert.byteCode.length = 4 ∧
    ∀ (F : Type) [Field F] [DecidableEq F] (x : F),
      ∃ regs', runFieldVM F directive_invert.byteCode 5 0 (updReg (fun _ => 0) 0 x)
          = some regs' ∧ regs' 0 = if x = 0 then 0 else x⁻¹ := by
  refine ⟨rfl, ?_⟩
  intro F instF instD x
  set regs0 : Nat → F := updReg (fun _ => 0) 0 x with hregs0
  have h0 : regs0 0 = x := by simp [hregs0, updReg]
  have step0 : runFieldVM F directive_invert.byteCode 5 0 regs0
      = if regs0 0 = 0 then runFieldVM F directive_invert.byteCode 4 3 regs0
        else runFieldVM F directive_invert.byteCode 4 1 regs0 := rfl
  by_cases hx : x = 0
  · refine ⟨regs0, ?_, ?_⟩
    · rw [step0, if_pos (by rw [h0, hx])]
      rfl
    · rw [h0, if_pos hx]
      exact hx
  · set regs1 : Nat → F := updReg regs0 1 ((1 : Nat) : F) with hregs1
    set regs2 : Nat → F := updReg regs1 0 (regs1 1 / regs1 0) with hregs2
    have step1 : runFieldVM F directive_invert.byteCode 4 1 regs0
        = runFieldVM F directive_invert.byteCode 3 2 regs1 := rfl
    have step2 : runFieldVM F directive_invert.byteCode 3 2 regs1
        = runFieldVM F directive_invert.byteCode 2 3 regs2 := rfl
    have step3 : runFieldVM F directive_invert.byteCode 2 3 regs2 = some regs2 := rfl
    refine ⟨regs2, ?_, ?_⟩
    · rw [step0, if_neg (by rw [h0]; exact hx), step1, step2, step3]
    · have h1 : regs1 1 = 1 := by simp [hregs1, updReg]
      have h2 : regs1 0 = x := by simp [hregs1, hregs0, updReg]
      rw [if_neg hx]
      simp [hregs2, updReg, h1, h2, one_div]

theorem directive_invert_spec_witness :
    ∃ regs', runFieldVM ℚ directive_invert.byteCode 5 0 (updReg (fun _ => 0) 0 2)
        = some regs' ∧ regs' 0 = if (2 : ℚ) = 0 then 0 else (2 : ℚ)⁻¹ :=
  directive_invert_spec.2 ℚ 2

/-- C6: the five-opcode program of `directive_quotient bitSize`, run on the
integer register machine with `a` in register 0 and `b ≠ 0` in register 1
(both below `2 ^ bitSize`), halts with register 0 holding the unsigned
quotient `a / b` and register 1 holding the remainder `a - a / b * b`; in
particular `(a = 17, b = 5, bitSize = 8)` yields `(3, 2)` and
`(a = 0, b = 5)` yields `(0, 0)`. -/
theorem directive_quotient_spec :
    (∀ w, (directive_quotient w).byteCode.length = 5) ∧
    (∀ (w a b : Nat), a < 2 ^ w → b < 2 ^ w → b ≠ 0 →
      ∃ regs', runIntVM (directive_quotient w).byteCode 6 0
          (updReg (updReg (fun _ => 0) 0 a) 1 b) = some regs' ∧
        regs' 0 = a / b ∧ regs' 1 = a - a / b * b) ∧
    (runIntVM (directive_quotient 8).byteCode 6 0
        (updReg (updReg (fun _ => 0) 0 17) 1 5)).map (fun r => (r 0, r 1))
      = some (3, 2) ∧
    (runIntVM (directive_quotient 8).byteCode 6 0
        (updReg (updReg (fun _ => 0) 0 0) 1 5)).map (fun r => (r 0, r 1))
      = some (0, 0) := by
  refine ⟨fun w => rfl, ?_, rfl, rfl⟩
  intro w a b ha hb _hbne
  set regs0 : Nat → Nat := updReg (updReg (fun _ => 0) 0 a) 1 b with hregs0
  set regs1 : Nat → Nat :=
    updReg regs0 2 (intOpEval .unsignedDiv w (regs0 0) (regs0 1)) with hregs1
  set regs2 : Nat → Nat :=
    updReg regs1 1 (intOpEval .mul w (regs1 2) (regs1 1)) with hregs2
  set regs3 : Nat → Nat :=
    updReg regs2 1 (intOpEval .sub w (regs2 0) (regs2 1)) with hregs3
  set regs4 : Nat → Nat := updReg regs3 0 (regs3 2) with hregs4
  have step0 : runIntVM (directive_quotient w).byteCode 6 0 regs0
      = runIntVM (directive_quotient w).byteCode 5 1 regs1 := rfl
  have step1 : runIntVM (directive_quotient w).byteCode 5 1 regs1
      = runIntVM (directive_quotient w).byteCode 4 2 regs2 := rfl
  have step2 : runIntVM (directive_quotient w).byteCode 4 2 regs2
      = runIntVM (directive_quotient w).byteCode 3 3 regs3 := rfl
  have step3 : runIntVM (directive_quotient w).byteCode 3 3 regs3
      = runIntVM (directive_quotient w).byteCode 2 4 regs4 := rfl
  have step4 : runIntVM (directive_quotient w).byteCode 2 4 regs4 = some regs4 := rfl
  have h00 : regs0 0 = a := by simp [hregs0, updReg]
  have h01 : regs0 1 = b := by simp [hregs0, updReg]
  have hqa : a / b ≤ a := Nat.div_le_self a b
  have hqba : a / b * b ≤ a := Nat.div_mul_le_self a b
  have h12 : regs1 2 = a / b := by
    simp [hregs1, updReg, h00, h01, intOpEval]
    exact Nat.mod_eq_of_lt (lt_of_le_of_lt hqa ha)
  have h10 : regs1 0 = a := by simp [hregs1, updReg, h00]
  have h11 : regs1 1 = b := by simp [hregs1, updReg, h01]
  have h21 : regs2 1 = a / b * b := by
    simp [hregs2, updReg, h12, h11, intOpEval]
    exact Nat.mod_eq_of_lt (lt_of_le_of_lt hqba ha)
  have h20 : regs2 0 = a := by simp [hregs2, updReg, h10]
  have h22 : regs2 2 = a / b := by simp [hregs2, updReg, h12]
  have h31 : regs3 1 = a - a / b * b := by
    simp [hregs3, updReg, h20, h21, intOpEval, Nat.mod_eq_of_lt ha]
    rw [Nat.mod_eq_of_lt (lt_of_le_of_lt hqba ha)]
    have hsplit : a + (2 ^ w - a / b * b) = a - a / b * b + 2 ^ w := by
      have : a / b * b ≤ 2 ^ w := le_of_lt (lt_of_le_of_lt hqba ha)
      omega
    rw [hsplit, Nat.add_mod_right]
    exact Nat.mod_eq_of_lt (by omega)
  have h32 : regs3 2 = a / b := by simp [hregs3, updReg, h22]
  refine ⟨regs4, ?_, ?_, ?_⟩
  · rw [step0, step1, step2, step3, step4]
  · simp [hregs4, updReg, h32]
  · simp [hregs4, updReg, h31]

theorem directive_quotient_spec_witness :
    ∃ regs', runIntVM (directive_quotient 8).byteCode 6 0
        (updReg (updReg (fun _ => 0) 0 17) 1 5) = some regs' ∧
      regs' 0 = 17 / 5 ∧ regs' 1 = 17 - 17 / 5 * 5 :=
  directive_quotient_spec.2.1 8 17 5 (by norm_num) (by norm_num) (by norm_num)

/-- C3: a slice-shrinking intrinsic call (pop-back, pop-front, remove)
processed by the tracker on a slice with an existing size record propagates
that record — with unchanged maxLength — to the call's designated result id;
consequently, for a push, push, pop sequence on one lineage, the tracked
bound after the pop equals the bound after the second push (each push having
incremented the initial bound 1 by one, giving 3). -/
theorem shrink_intrinsic_keeps_bound :
    (∀ (fuel : Nat) (d : Dfg) (st st' : TrackSt) (results : List Vid) (f : Vid)
        (args : List Vid) (k : IntrKind) (len : Nat) (inner : List Vid),
        lookupVal d f = some (.intrinsic k) →
        (k = .popBack ∨ k = .popFront ∨ k = .remove) →
        alookup st.sliceSizes (args.getD 1 0) = some (len, inner) →
        trackInstr fuel d st (.call results f args) = .ok st' →
        alookup st'.sliceSizes
          (results.getD (match k with | .popFront => 2 | _ => 1) 0)
          = some (len, inner)) ∧
    exOk ((trackBlock 9 dC3 blkC3 ⟨[], [], []⟩).map
        (fun st => (alookup st.sliceSizes 24, alookup st.sliceSizes 26)))
      = some (some (3, []), some (3, [])) := by
  constructor
  · intro fuel d st st' results f args k len inner hf hk hlk h
    simp only [trackInstr, hf] at h
    rcases hk with rfl | rfl | rfl <;>
    · simp only [hlk] at h
      injection h with h'
      rw [← h']
      exact alookup_ainsert_self _ _ _
  · rfl

theorem shrink_intrinsic_keeps_bound_witness :
    alookup [(9, ((3 : Nat), ([] : List Vid))), (7, (3, []))] 9
      = some (3, []) :=
  shrink_intrinsic_keeps_bound.1 9 dW3 ⟨[], [(7, (3, []))], []⟩
    ⟨[], [(9, (3, [])), (7, (3, []))], [(7, 9)]⟩ [8, 9] 4 [0, 7]
    .popBack 3 [] rfl (Or.inl rfl) rfl rfl

/-- C9 (amended): an `ArraySet` that writes a slice-containing value into a
target array id holding no size record makes the tracker fail with the
diagnostic "ICE expected slice sizes"; but the panic is avoided not only when
the target is a materialized array constant — any target id carrying a record
inherited from an earlier instruction (e.g. the result of a previous
`ArraySet`) also escapes it. -/
theorem arrayset_missing_sizes_panics :
    ∀ (fuel : Nat) (d : Dfg) (st : TrackSt) (res array index value : Vid)
      (s1 : SzMap),
      isArrValue d array = false →
      containsSlice (typeOfValue d value) = true →
      computeSliceSizes fuel d value st.sliceSizes = .ok s1 →
      alookup s1 array = none →
      trackInstr fuel d st (.arraySet res array index value)
        = .error "ICE expected slice sizes" := by
  intro fuel d st res array index value s1 ha hv hc hnone
  simp [trackInstr, seedArray, ha, hv, hc, hnone, Except.bind, Bind.bind]

/-- C9 counterexample (to the claim's "unreachable only when every
slice-writing ArraySet targets a materialized array constant"): the second
write targets the non-materialized result id 20 of the first write, yet the
tracker completes without panicking because id 20 inherited a size record. -/
theorem arrayset_nonmaterialized_target_cex :
    exOk ((trackBlock 9 dC9 blkC9 ⟨[], [], []⟩).map
      (fun st => alookup st.sliceSizes 21)) = some (some (1, [2, 2, 2])) ∧
    isArrValue dC9 20 = false ∧
    containsSlice (typeOfValue dC9 2) = true := ⟨rfl, rfl, rfl⟩

theorem arrayset_missing_sizes_panics_witness :
    trackInstr 9 dW9 ⟨[], [], []⟩ (.arraySet 20 4 9 2)
      = .error "ICE expected slice sizes" :=
  arrayset_missing_sizes_panics 9 dW9 ⟨[], [], []⟩ 20 4 9 2 [(2, (1, []))]
    rfl rfl rfl rfl

/-- The maximum loop of `compute_slice_sizes` succeeds only when every direct
inner slice has a record, and the result bounds every such record. -/
theorem maxInnerLen_spec (sizes : SzMap) :
    ∀ (l : List Vid) (acc m : Nat), maxInnerLen sizes l acc = .ok m →
      acc ≤ m ∧ ∀ i ∈ l, ∃ r, alookup sizes i = some r ∧ r.1 ≤ m := by
  intro l
  induction l with
  | nil =>
    intro acc m h
    simp only [maxInnerLen] at h
    injection h with h'
    exact ⟨le_of_eq h', by simp⟩
  | cons i rest ih =>
    intro acc m h
    simp only [maxInnerLen] at h
    cases hlk : alookup sizes i with
    | none => rw [hlk] at h; simp at h
    | some r =>
      obtain ⟨len, inn⟩ := r
      rw [hlk] at h
      simp only at h
      obtain ⟨hacc, hrest⟩ := ih _ _ h
      have hstep : acc ≤ (if len > acc then len else acc) ∧
          len ≤ (if len > acc then len else acc) := by
        split <;> omega
      refine ⟨le_trans hstep.1 hacc, ?_⟩
      intro j hj
      rcases List.mem_cons.mp hj with rfl | hj'
      · exact ⟨(len, inn), hlk, le_trans hstep.2 hacc⟩
      · exact hrest j hj'

/-- The raising loop of `compute_slice_sizes` only rewrites records to carry
the maximum `m`. -/
theorem raiseInner_shape :
    ∀ (l : List Vid) (sizes s2 : SzMap) (m : Nat), raiseInner sizes l m = .ok s2 →
      ∀ j, alookup s2 j = alookup sizes j ∨ ∃ il, alookup s2 j = some (m, il) := by
  intro l
  induction l with
  | nil =>
    intro sizes s2 m h j
    simp only [raiseInner] at h
    injection h with h'
    rw [h']
    exact Or.inl rfl
  | cons i rest ih =>
    intro sizes s2 m h j
    simp only [raiseInner] at h
    cases hlk : alookup sizes i with
    | none => rw [hlk] at h; simp at h
    | some r =>
      obtain ⟨len, inn⟩ := r
      rw [hlk] at h
      simp only at h
      by_cases hlt : len < m
      · rw [if_pos hlt] at h
        rcases ih _ _ _ h j with heq | hm
        · by_cases hji : j = i
          · subst hji
            exact Or.inr ⟨inn, by rw [heq, alookup_ainsert_self]⟩
          · exact Or.inl (by rw [heq, alookup_ainsert_ne _ _ hji])
        · exact Or.inr hm
      · rw [if_neg hlt] at h
        exact ih _ _ _ h j

/-- Given bounded records for every direct inner slice, the raising loop
succeeds and leaves every one of them with the common maximum `m`. -/
theorem raiseInner_good :
    ∀ (l : List Vid) (sizes : SzMap) (m : Nat),
      (∀ i ∈ l, ∃ r, alookup sizes i = some r ∧ r.1 ≤ m) →
      ∃ s2, raiseInner sizes l m = .ok s2 ∧
        ∀ i ∈ l, ∃ il, alookup s2 i = some (m, il) := by
  intro l
  induction l with
  | nil => intro sizes m _; exact ⟨sizes, rfl, by simp⟩
  | cons i rest ih =>
    intro sizes m hb
    obtain ⟨⟨len, inn⟩, hlk, hle⟩ := hb i (List.mem_cons_self i rest)
    by_cases hlt : len < m
    · have hb1 : ∀ i' ∈ rest, ∃ r,
          alookup (ainsert sizes i (m, inn)) i' = some r ∧ r.1 ≤ m := by
        intro i' hi'
        by_cases hii : i' = i
        · subst hii
          exact ⟨(m, inn), alookup_ainsert_self _ _ _, le_refl m⟩
        · obtain ⟨r, hr, hrle⟩ := hb i' (List.mem_cons_of_mem _ hi')
          exact ⟨r, by rw [alookup_ainsert_ne _ _ hii]; exact hr, hrle⟩
      obtain ⟨s2, hs2, hgood⟩ := ih (ainsert sizes i (m, inn)) m hb1
      refine ⟨s2, ?_, ?_⟩
      · simp only [raiseInner, hlk, if_pos hlt]
        exact hs2
      · intro j hj
        rcases List.mem_cons.mp hj with rfl | hj'
        · rcases raiseInner_shape rest _ s2 m hs2 j with heq | hm2
          · exact ⟨inn, by rw [heq, alookup_ainsert_self]⟩
          · exact hm2
        · exact hgood j hj'
    · have hlm : len = m := le_antisymm hle (not_lt.mp hlt)
      obtain ⟨s2, hs2, hgood⟩ := ih sizes m
        (fun i' hi' => hb i' (List.mem_cons_of_mem _ hi'))
      refine ⟨s2, ?_, ?_⟩
      · simp only [raiseInner, hlk, if_neg hlt]
        exact hs2
      · intro j hj
        rcases List.mem_cons.mp hj with rfl | hj'
        · rcases raiseInner_shape rest sizes s2 m hs2 j with heq | hm2
          · exact ⟨inn, by rw [heq, hlk, hlm]⟩
          · exact hm2
        · exact hgood j hj'

/-- The collected inner-slice list of `compute_slice_sizes` consists of
slice-typed elements of the array. -/
theorem computeInner_mem :
    ∀ (fuel : Nat) (d : Dfg) (elems : List Vid) (sizes : SzMap) (inner : List Vid)
      (s1 : SzMap), computeInner fuel d elems sizes = .ok (inner, s1) →
      ∀ v ∈ inner, v ∈ elems ∧ isSliceTy (typeOfValue d v) = true := by
  intro fuel
  induction fuel with
  | zero =>
    intro d elems sizes inner s1 h
    simp [computeInner] at h
  | succ f ih =>
    intro d elems sizes inner s1 h v hv
    cases elems with
    | nil =>
      simp only [computeInner] at h
      injection h with h'
      injection h' with ha hb
      rw [← ha] at hv
      simp at hv
    | cons e rest =>
      simp only [computeInner] at h
      by_cases he : isSliceTy (typeOfValue d e) = true
      · rw [if_pos he] at h
        cases hcs : computeSliceSizes f d e sizes with
        | error err => rw [hcs] at h; simp at h
        | ok s0 =>
          rw [hcs] at h
          simp only at h
          cases hci : computeInner f d rest s0 with
          | error err => rw [hci] at h; simp at h
          | ok pr =>
            obtain ⟨inner0, s2⟩ := pr
            rw [hci] at h
            simp at h
            obtain ⟨h1, _⟩ := h
            rw [← h1] at hv
            rcases List.mem_cons.mp hv with rfl | hv'
            · exact ⟨List.mem_cons_self _ _, he⟩
            · obtain ⟨hm, hs⟩ := ih d rest s0 inner0 s2 hci v hv'
              exact ⟨List.mem_cons_of_mem _ hm, hs⟩
      · rw [if_neg he] at h
        obtain ⟨hm, hs⟩ := ih d rest sizes inner s1 h v hv
        exact ⟨List.mem_cons_of_mem _ hm, hs⟩

/-- `compute_slice_sizes` can never succeed on a slice value that contains
itself as an element: the recursion exhausts any fuel. -/
theorem computeSliceSizes_self_fail (d : Dfg) (id : Vid) (elems : List Vid)
    (typ : Ty) (hlk : lookupVal d id = some (.arr elems typ))
    (hsl : isSliceTy typ = true) (hmem : id ∈ elems) :
    ∀ fuel : Nat,
      (∀ s s', computeSliceSizes fuel d id s ≠ .ok s') ∧
      (∀ (l : List Vid) (s : SzMap) r, id ∈ l → computeInner fuel d l s ≠ .ok r) := by
  have hty : isSliceTy (typeOfValue d id) = true := by
    simpa [typeOfValue, hlk] using hsl
  intro fuel
  induction fuel with
  | zero =>
    exact ⟨fun s s' h => by simp [computeSliceSizes] at h,
           fun l s r _ h => by simp [computeInner] at h⟩
  | succ f ih =>
    obtain ⟨ihP, ihQ⟩ := ih
    constructor
    · intro s s' h
      simp only [computeSliceSizes, hlk, hsl, if_true] at h
      cases hci : computeInner f d elems s with
      | error e => rw [hci] at h; simp at h
      | ok pr => exact ihQ elems s pr hmem hci
    · intro l s r hidl h
      cases l with
      | nil => simp at hidl
      | cons e rest =>
        simp only [computeInner] at h
        by_cases he : isSliceTy (typeOfValue d e) = true
        · rw [if_pos he] at h
          cases hcs : computeSliceSizes f d e s with
          | error err => rw [hcs] at h; simp at h
          | ok s1 =>
            rcases List.mem_cons.mp hidl with rfl | hidr
            · exact ihP s s1 hcs
            · rw [hcs] at h
              simp only at h
              cases hci : computeInner f d rest s1 with
              | error err => rw [hci] at h; simp at h
              | ok pr2 => exact ihQ rest s1 pr2 hidr hci
        · rw [if_neg he] at h
          rcases List.mem_cons.mp hidl with rfl | hidr
          · exact absurd hty he
          · exact ihQ rest s r hidr h

/-- C4 (amended): immediately after a successful `compute_slice_sizes` call on
a materialized slice value, all of that value's direct inner slices carry
size records sharing one common maxLength (the sibling maximum). The claim's
further assertion — that this uniformity still holds for every group in the
map once tracking of the whole block completes — fails, since later
instructions can raise one sibling's record independently. -/
theorem compute_slice_sizes_sibling_uniform :
    ∀ (fuel : Nat) (d : Dfg) (id : Vid) (s s' : SzMap) (elems : List Vid)
      (ets : List Ty),
      lookupVal d id = some (.arr elems (.slice ets)) →
      computeSliceSizes fuel d id s = .ok s' →
      ∃ len inner, alookup s' id = some (len, inner) ∧
        ∃ m, ∀ i ∈ inner, ∃ il, alookup s' i = some (m, il) := by
  intro fuel d id s s' elems ets hlk h
  have horig := h
  cases fuel with
  | zero => simp [computeSliceSizes] at h
  | succ f =>
    simp only [computeSliceSizes, hlk, isSliceTy, if_true] at h
    cases hci : computeInner f d elems s with
    | error e => rw [hci] at h; simp at h
    | ok pr =>
      obtain ⟨inner, s1⟩ := pr
      rw [hci] at h
      simp only at h
      cases hmx : maxInnerLen s1 inner 0 with
      | error e => rw [hmx] at h; simp at h
      | ok m =>
        rw [hmx] at h
        simp only at h
        obtain ⟨_, hbound⟩ := maxInnerLen_spec s1 inner 0 m hmx
        obtain ⟨s2, hs2, hgood⟩ := raiseInner_good inner s1 m hbound
        rw [hs2] at h
        simp only at h
        injection h with h'
        have hnotmem : id ∉ inner := by
          intro hmem
          obtain ⟨hin, _⟩ := computeInner_mem f d elems s inner s1 hci id hmem
          exact (computeSliceSizes_self_fail d id elems (.slice ets) hlk rfl
            hin (f + 1)).1 s s' horig
        refine ⟨elems.length / elementSize (.slice ets), inner, ?_, m, ?_⟩
        · rw [← h']
          exact alookup_ainsert_self _ _ _
        · intro i hi
          obtain ⟨il, hil⟩ := hgood i hi
          refine ⟨il, ?_⟩
          have hne : i ≠ id := by
            intro hq
            rw [hq] at hi
            exact hnotmem hi
          rw [← h', alookup_ainsert_ne _ _ hne]
          exact hil

/-- C4 counterexample (to "uniformity holds for every group once tracking of
the block completes"): after the block of `blkC4`, the group of id 3 still
lists siblings 2 and 5, but their records carry maxLengths 2 and 1. -/
theorem sibling_uniformity_after_block_cex :
    exOk ((trackBlock 9 dC4 blkC4 ⟨[], [], []⟩).map
      (fun st => (alookup st.sliceSizes 3, alookup st.sliceSizes 2,
        alookup st.sliceSizes 5)))
      = some (some (2, [2, 5, 30]), some (2, []), some (1, [])) ∧
    (2 : Nat) ≠ 1 := ⟨rfl, by decide⟩

theorem compute_slice_sizes_sibling_uniform_witness :
    ∃ s', computeSliceSizes 9 dW4 3 [] = .ok s' ∧
      ∃ len inner, alookup s' 3 = some (len, inner) ∧
        ∃ m, ∀ i ∈ inner, ∃ il, alookup s' i = some (m, il) := by
  obtain ⟨s', hs⟩ : ∃ s', computeSliceSizes 9 dW4 3 [] = .ok s' := ⟨_, rfl⟩
  exact ⟨s', hs, compute_slice_sizes_sibling_uniform 9 dW4 3 [] s' [2, 5]
    [.slice [.numeric .field]] rfl hs⟩

/-- The inserter's resolution is the identity while no substitution has been
recorded. -/
theorem resolveIns_nil (fuel : Nat) (v : Vid) : resolveIns fuel [] v = v := by
  cases fuel <;> simp [resolveIns, followMappedSliceValues, alookup]

theorem map_resolveIns_nil (fuel : Nat) (l : List Vid) :
    l.map (resolveIns fuel []) = l := by
  induction l with
  | nil => rfl
  | cons a t ih => simp [resolveIns_nil, ih]

theorem mapInstrOps_nil (fuel : Nat) (i : Instr) : mapInstrOps fuel [] i = i := by
  cases i <;> simp [mapInstrOps, resolveIns_nil, map_resolveIns_nil]

/-- An instruction that touches no slice data leaves the (empty) analysis
state unchanged. -/
theorem trackInstr_benign (fuel : Nat) (d : Dfg) (i : Instr)
    (hb : noSliceTouch d i = true) :
    trackInstr fuel d ⟨[], [], []⟩ i = .ok ⟨[], [], []⟩ := by
  cases i with
  | arrayGet res array index =>
    simp only [noSliceTouch, Bool.not_eq_eq_eq_not, Bool.not_true] at hb
    by_cases hres : containsSlice (typeOfValue d res) = true <;>
      simp [trackInstr, seedArray, hb, hres, alookup, Except.bind, Bind.bind]
  | arraySet res array index value =>
    simp only [noSliceTouch, Bool.and_eq_true, Bool.not_eq_eq_eq_not,
      Bool.not_true] at hb
    simp [trackInstr, seedArray, hb.1, hb.2, alookup, Except.bind, Bind.bind]
  | call results func args =>
    cases hf : lookupVal d func with
    | none => simp [trackInstr, hf]
    | some val =>
      cases val with
      | arr elems typ => simp [trackInstr, hf]
      | numConst a t => simp [trackInstr, hf]
      | other t => simp [trackInstr, hf]
      | intrinsic k => cases k <;> simp [trackInstr, hf, alookup]
  | simple results ops => rfl

/-- A block of instructions that touch no slice data tracks to the empty
analysis state. -/
theorem trackBlock_benign (fuel : Nat) (d : Dfg) :
    ∀ instrs : List Instr, (∀ i ∈ instrs, noSliceTouch d i = true) →
      trackBlock fuel d instrs ⟨[], [], []⟩ = .ok ⟨[], [], []⟩ := by
  intro instrs
  induction instrs with
  | nil => intro _; rfl
  | cons i rest ih =>
    intro hb
    have hstep := trackInstr_benign fuel d i (hb i (List.mem_cons_self i rest))
    simp only [trackBlock, hstep]
    exact ih (fun j hj => hb j (List.mem_cons_of_mem _ hj))

/-- With no seen slice values and no recorded substitution, the rewrite phase
emits every instruction unchanged and creates no value. -/
theorem rewriteList_untracked (fuel : Nat) (sizes : SzMap) (mapped : VMap) :
    ∀ (instrs : List Instr) (d : Dfg) (out : List Instr),
      rewriteList fuel [] sizes mapped ⟨d, [], out⟩ instrs
        = .ok ⟨d, [], out ++ instrs⟩ := by
  intro instrs
  induction instrs with
  | nil => intro d out; simp [rewriteList]
  | cons i rest ih =>
    intro d out
    have hstep : rewriteStep fuel [] sizes mapped ⟨d, [], out⟩ i
        = .ok ⟨d, [], out ++ [i]⟩ := by
      cases i <;> simp [rewriteStep, List.contains, mapInstrOps_nil]
    simp only [rewriteList, hstep]
    rw [ih d (out ++ [i])]
    simp

/-- C10 (amended): a basic block containing no `ArrayGet`/`ArraySet` on a
materialized slice-containing value and no `ArraySet` writing a
slice-containing value is passed through unchanged by `process_block`: every
instruction and the terminator are copied as-is and the value store gains no
new value. (As literally stated the claim fails — see
`slice_write_block_panics_cex` — because an `ArraySet` that writes a
slice-containing value into an untracked target panics the tracker.) -/
theorem benign_block_unchanged :
    ∀ (fuel : Nat) (d : Dfg) (instrs : List Instr) (term : List Vid),
      (∀ i ∈ instrs, noSliceTouch d i = true) →
      processBlock fuel d instrs term = .ok (instrs, term, d) := by
  intro fuel d instrs term hb
  have htrack := trackBlock_benign fuel d instrs hb
  have hrew := rewriteList_untracked fuel [] [] instrs d []
  simp only [processBlock, htrack, nestedMaxLoop, hrew]
  simp [map_resolveIns_nil]

/-- C10 counterexample: the single instruction of `blkC10` satisfies the
claim's hypothesis (its source array operand id 4 is not a materialized
slice-containing value), yet the block is not passed through unchanged — the
pass dies in the tracker with "ICE expected slice sizes" because the written
value id 2 is slice-containing and the target has no record. -/
theorem slice_write_block_panics_cex :
    (∀ i ∈ blkC10, noMatSliceSource dC10 i = true) ∧
    exErr (processBlock 9 dC10 blkC10 []) = some "ICE expected slice sizes" :=
  ⟨by decide, rfl⟩

theorem benign_block_unchanged_witness :
    processBlock 9 dW10 blkW10 [1] = .ok (blkW10, [1], dW10) :=
  benign_block_unchanged 9 dW10 blkW10 [1] (by decide)

end NoirSlices
